import Mathlib

/-!
Verification development for the document-extraction core of the
`AI_rewriter` repository (`src/document_extractor.py`) and its rewriting
collaborator (`src/content_rewriter.py`).

The Python code is shallowly embedded: paragraph/run text is modelled as
`List Char`, Python's string operations (`in`, `find`, `strip`,
`replace`, `int()`, `startswith`) are re-implemented over `List Char`,
stateful extraction is modelled as explicit state passing, and fallible
paths (the `doc.paragraphs[current_index]` lookup, relationship lookups,
image decoding) are modelled with `Option`/`Except`.  File-system side
effects of the image validator are modelled as an explicit association
list from paths to byte lists.  The random 8-hex filename component is
modelled by a deterministic counter supply (the code only requires
uniqueness), and Python's unicode whitespace is modelled by its ASCII
subset.
-/

namespace AIRW

/-- Character lists stand in for Python strings. -/
abbrev Chars := List Char

/-- ASCII whitespace, the subset of Python's `str.strip()` default set
that can occur in the texts this development manipulates. -/
def isWsChar (c : Char) : Bool :=
  c = ' ' || c = '\t' || c = '\n' || c = '\r' || c = '\x0b' || c = '\x0c'

/-- Python `s.strip()`: drop leading and trailing whitespace. -/
def stripChars (s : Chars) : Chars :=
  ((s.dropWhile isWsChar).reverse.dropWhile isWsChar).reverse

/-- Embedding of Python `s.startswith(pat)`: `listStartsWith pat s` is Python `s.startswith(pat)`. -/
def listStartsWith : Chars → Chars → Bool
  | [], _ => true
  | _ :: _, [] => false
  | p :: ps, c :: cs => p = c && listStartsWith ps cs

/-- Index of the first occurrence of `pat` in `s`, if any. -/
def subFind (pat : Chars) : Chars → Option Nat
  | [] => if listStartsWith pat [] then some 0 else none
  | c :: rest =>
    if listStartsWith pat (c :: rest) then some 0
    else (subFind pat rest).map (· + 1)

/-- Python `pat in s`. -/
def inStr (pat s : Chars) : Bool :=
  (subFind pat s).isSome

/-- Python `s.find(pat)`: first index, `-1` when absent. -/
def pyFind (s pat : Chars) : Int :=
  match subFind pat s with
  | some i => (i : Int)
  | none => -1

/-- Python `s.find(pat, start)`: first index `≥ start`, `-1` when absent. -/
def pyFindFrom (s pat : Chars) (start : Nat) : Int :=
  match subFind pat (s.drop start) with
  | some i => ((start + i : Nat) : Int)
  | none => -1

/-- Fuel-indexed worker for `pyRemoveAll`. -/
def removeAllAux (pat : Chars) : Nat → Chars → Chars
  | 0, s => s
  | _ + 1, [] => []
  | fuel + 1, c :: rest =>
    if listStartsWith pat (c :: rest) then
      removeAllAux pat fuel (List.drop pat.length (c :: rest))
    else
      c :: removeAllAux pat fuel rest

/-- Python `s.replace(pat, '')`: remove every (left-to-right,
non-overlapping) occurrence of `pat`. -/
def pyRemoveAll (pat s : Chars) : Chars :=
  removeAllAux pat s.length s

/-- Decimal digit value of a character. -/
def digitVal (c : Char) : Option Nat :=
  if '0' ≤ c ∧ c ≤ '9' then some (c.toNat - 48) else none

/-- Remaining digits of a Python integer literal: digits optionally
separated by single underscores (an underscore must sit between two
digits).  `afterUnderscore` records that the previous character was an
underscore, so the next one must be a digit. -/
def parseDigitsAux (acc : Nat) (afterUnderscore : Bool) : Chars → Option Nat
  | [] => if afterUnderscore then none else some acc
  | c :: rest =>
    match digitVal c with
    | some d => parseDigitsAux (acc * 10 + d) false rest
    | none =>
      if c = '_' ∧ afterUnderscore = false then parseDigitsAux acc true rest
      else none

/-- Digit run of a Python `int()` literal (must start with a digit). -/
def parseDigits : Chars → Option Nat
  | [] => none
  | c :: rest =>
    match digitVal c with
    | some d => parseDigitsAux d false rest
    | none => none

/-- Python `int(s)` for base 10: surrounding whitespace, an optional
sign, then digits with optional underscore separators. -/
def pyInt (s : Chars) : Option Int :=
  match stripChars s with
  | [] => none
  | c :: rest =>
    if c = '+' then (parseDigits rest).map Int.ofNat
    else if c = '-' then (parseDigits rest).map (fun m : Nat => -(m : Int))
    else (parseDigits (c :: rest)).map Int.ofNat

/-! ## Formula Extractor: `_contains_latex_formula` -/

/-- The paired LaTeX delimiters of `DocumentExtractor._contains_latex_formula`. -/
def latexMarkers : List (Chars × Chars) :=
  [(("\\begin{equation}").data, ("\\end{equation}").data),
   (("\\begin{align}").data, ("\\end{align}").data),
   (("\\[").data, ("\\]").data),
   (("$$").data, ("$$").data),
   (("$").data, ("$").data)]

/-- One iteration of the paired-delimiter loop: both markers occur and the
closing one occurs at or after the end of the first opening one. -/
def pairedMarkerHit (text start stop : Chars) : Bool :=
  if inStr start text && inStr stop text then
    let startPos := pyFind text start
    let endPos := pyFindFrom text stop (startPos.toNat + start.length)
    endPos > startPos
  else false

/-- The fixed LaTeX command vocabulary of `_contains_latex_formula`. -/
def latexCommands : List Chars :=
  [("\\frac").data, ("\\sum").data, ("\\int").data, ("\\prod").data,
   ("\\alpha").data, ("\\beta").data, ("\\Delta").data, ("\\partial").data,
   ("\\infty").data, ("\\in").data, ("\\subset").data]

/-- Embedding of `DocumentExtractor._contains_latex_formula`: paired delimiters, else at
least two vocabulary commands present as substrings. -/
def containsLatexFormula (text : Chars) : Bool :=
  if latexMarkers.any (fun p => pairedMarkerHit text p.1 p.2) then true
  else if 2 ≤ (latexCommands.filter (fun c => inStr c text)).length then true
  else false

/-! ## Rewriter collaborator: `ContentRewriter._contains_formula` and
`_process_text_block` -/

/-- The rewriter's own LaTeX marker list (`_contains_formula`). -/
def rwLatexMarkers : List Chars :=
  [("\\begin{equation}").data, ("\\end{equation}").data,
   ("\\begin{align}").data, ("\\end{align}").data,
   ("$").data, ("\\frac").data, ("\\sum").data, ("\\int").data,
   ("\\alpha").data, ("\\beta").data, ("\\gamma").data]

/-- The rewriter's OMML marker list (`_contains_formula`). -/
def rwOfficeMarkers : List Chars :=
  [("<m:oMath").data, ("<m:r>").data, ("<m:t>").data, ("<m:f>").data,
   ("<m:num>").data, ("<m:den>").data]

/-- Embedding of `ContentRewriter._contains_formula`: any marker present. -/
def containsFormula (text : Chars) : Bool :=
  (rwLatexMarkers ++ rwOfficeMarkers).any (fun m => inStr m text)

/-- Association-list lookup for the rewrite cache (the md5 cache key is
modelled by the text itself; md5 is injective for the model's purposes). -/
def cacheLookup : List (Chars × Chars) → Chars → Option Chars
  | [], _ => none
  | e :: rest, k => if e.1 = k then some e.2 else cacheLookup rest k

/-- Embedding of `ContentRewriter._process_text_block` on a block's content.  Returns the
resulting content and whether the rewrite API was called.  `api` returning
`none` models the API call raising (the code then returns the original
text). -/
def processTextBlock (cache : List (Chars × Chars)) (api : Chars → Option Chars)
    (content : Chars) : Chars × Bool :=
  if containsFormula content then (content, false)
  else
    match cacheLookup cache content with
    | some v => (v, false)
    | none =>
      match api content with
      | some r => (r, true)
      | none => (content, true)

/-! ## Drawing Resolver: `_process_images` and `_find_all_drawings` -/

/-- Placement metadata attached to a resolved image (the walker never
inspects it; width/height/offset details are collapsed into the tag). -/
inductive PosInfo where
  | modern (drawingType : String)
  | shape (style : String)
  | unknown
  deriving DecidableEq, Repr

/-- One entry of `_find_all_drawings`: a relationship id from `r:embed` or
`r:link` (the source appends an entry only when the id is truthy) plus
placement metadata. -/
structure DrawingRef where
  rid : Chars
  pos : PosInfo
  deriving DecidableEq, Repr

/-- A legacy `v:shape` node: the id from `r:id`/`o:relid` on its
`v:imagedata` child (`none` when the child or both attributes are
missing or falsy) and its raw style string. -/
structure VmlShape where
  rid : Option Chars
  style : String
  deriving DecidableEq, Repr

/-- One document relationship: whether `"image"` occurs in its reltype,
its target part's MIME type and binary payload. -/
structure Rel where
  reltypeHasImage : Bool
  contentType : Chars
  blob : List Nat
  deriving DecidableEq, Repr

/-- The table `doc.part.rels`: insertion-ordered id → relationship table. -/
abbrev RelTable := List (Chars × Rel)

/-- Lookup in the relationship table (`rid in part.rels` / `part.rels[rid]`). -/
def relLookup : RelTable → Chars → Option Rel
  | [], _ => none
  | e :: rest, k => if e.1 = k then some e.2 else relLookup rest k

/-- The table `DocumentExtractor.image_formats` with the `.png` default of
`image_formats.get(content_type, '.png')`. -/
def imageExtOf (ct : Chars) : Chars :=
  if ct = ("image/png").data then (".png").data
  else if ct = ("image/jpeg").data then (".jpg").data
  else if ct = ("image/jpg").data then (".jpg").data
  else if ct = ("image/gif").data then (".gif").data
  else if ct = ("image/bmp").data then (".bmp").data
  else if ct = ("image/tiff").data then (".tiff").data
  else if ct = ("image/x-emf").data then (".emf").data
  else if ct = ("image/x-wmf").data then (".wmf").data
  else if ct = ("image/x-pict").data then (".pict").data
  else (".png").data

/-- A resolved image block payload.  `rid` records which relationship
produced the entry (provenance, needed to state de-duplication). -/
structure ImageInfo where
  rid : Chars
  filename : Chars
  posInfo : PosInfo
  fileSize : Nat
  contentType : Chars
  deriving DecidableEq, Repr

/-- Running state of one `_process_images` call: emitted entries, the
per-call `processed_rids` set, and the fresh-filename supply standing in
for `uuid.uuid4()[:8]`. -/
structure PIState where
  results : List ImageInfo
  processed : List Chars
  counter : Nat
  deriving DecidableEq, Repr

/-- Build the `image_<unique><ext>` filename and advance the supply. -/
def freshName (counter : Nat) (ext : Chars) : Chars :=
  ("image_").data ++ (toString counter).data ++ ext

/-- Modern tier: walk `_find_all_drawings` output; a truthy unseen id that
resolves in `part.rels` is persisted and recorded. -/
def runTier1 (rels : RelTable) : List DrawingRef → PIState → PIState
  | [], st => st
  | d :: ds, st =>
    if d.rid ≠ [] ∧ d.rid ∉ st.processed then
      match relLookup rels d.rid with
      | some rel =>
        let ext := imageExtOf rel.contentType
        let info : ImageInfo :=
          { rid := d.rid, filename := freshName st.counter ext, posInfo := d.pos,
            fileSize := rel.blob.length, contentType := rel.contentType }
        runTier1 rels ds
          { results := st.results ++ [info],
            processed := st.processed ++ [d.rid], counter := st.counter + 1 }
      | none => runTier1 rels ds st
    else runTier1 rels ds st

/-- Legacy VML tier: like the modern tier but over `v:shape` nodes; a
missing relationship raises `KeyError`, is caught, and the shape is
skipped. -/
def runTier2 (rels : RelTable) : List VmlShape → PIState → PIState
  | [], st => st
  | sh :: shs, st =>
    match sh.rid with
    | some r =>
      if r ≠ [] ∧ r ∉ st.processed then
        match relLookup rels r with
        | some rel =>
          let ext := imageExtOf rel.contentType
          let info : ImageInfo :=
            { rid := r, filename := freshName st.counter ext,
              posInfo := PosInfo.shape sh.style,
              fileSize := rel.blob.length, contentType := rel.contentType }
          runTier2 rels shs
            { results := st.results ++ [info],
              processed := st.processed ++ [r], counter := st.counter + 1 }
        | none => runTier2 rels shs st
      else runTier2 rels shs st
    | none => runTier2 rels shs st

/-- Fallback tier: enumerate every relationship of the owning part whose
reltype mentions `"image"` and treat each unseen one as an unplaced image. -/
def runTier3 : RelTable → PIState → PIState
  | [], st => st
  | e :: es, st =>
    if e.2.reltypeHasImage ∧ e.1 ∉ st.processed then
      let ext := imageExtOf e.2.contentType
      let info : ImageInfo :=
        { rid := e.1, filename := freshName st.counter ext,
          posInfo := PosInfo.unknown,
          fileSize := e.2.blob.length, contentType := e.2.contentType }
      runTier3 es
        { results := st.results ++ [info],
          processed := st.processed ++ [e.1], counter := st.counter + 1 }
    else runTier3 es st

/-- Embedding of `DocumentExtractor._process_images`: the tiered search.  Each later
tier runs only when `results` is still empty.  Returns the emitted
entries and the advanced filename supply. -/
def processImages (rels : RelTable) (drawings : List DrawingRef)
    (shapes : List VmlShape) (counter : Nat) : List ImageInfo × Nat :=
  let st1 := runTier1 rels drawings { results := [], processed := [], counter := counter }
  let st2 := if st1.results = [] then runTier2 rels shapes st1 else st1
  let st3 := if st2.results = [] then runTier3 rels st2 else st2
  (st3.results, st3.counter)

/-! ## Image Persister/Validator: `_validate_and_fix_image`

The file system is an association list from paths (as `Chars`) to byte
lists; PIL decoding and re-encoding are oracle parameters. -/

abbrev Bytes := List Nat

abbrev FS := List (Chars × Bytes)

/-- Read a file. -/
def fsGet : FS → Chars → Option Bytes
  | [], _ => none
  | e :: rest, p => if e.1 = p then some e.2 else fsGet rest p

/-- Drop a path's binding. -/
def fsErase (fs : FS) (p : Chars) : FS :=
  fs.filter (fun e => decide (e.1 ≠ p))

/-- Write a file (overwriting any previous binding). -/
def fsSet (fs : FS) (p : Chars) (v : Bytes) : FS :=
  (p, v) :: fsErase fs p

/-- Last index at which `c` occurs in `s`. -/
def lastIndexOf (c : Char) (s : Chars) : Option Nat :=
  (subFind [c] s.reverse).map (fun i => s.length - 1 - i)

/-- Embedding of `os.path.splitext(s)[0]` (POSIX separators): everything before the
extension, where the extension starts at the last dot of the basename
that is preceded there by a non-dot character. -/
def splitextRoot (s : Chars) : Chars :=
  let base0 :=
    match lastIndexOf '/' s with
    | some i => s.drop (i + 1)
    | none => s
  let dirLen := s.length - base0.length
  let lead := base0.takeWhile (fun c => c = '.')
  let rest := base0.dropWhile (fun c => c = '.')
  match lastIndexOf '.' rest with
  | some k => s.take (dirLen + lead.length + k)
  | none => s

/-- The repair target `f"{splitext(path)[0]}_fixed.png"`. -/
def fixedPath (p : Chars) : Chars :=
  splitextRoot p ++ ("_fixed.png").data

/-- PIL behaviour oracles: `decodeOk` is `Image.open` + `verify`
succeeding; `reencode` is open/convert/`save(format='PNG')`, `none`
meaning the repair attempt raised. -/
structure ImgOps where
  decodeOk : Bytes → Bool
  reencode : Bytes → Option Bytes

/-- Embedding of `DocumentExtractor._validate_and_fix_image`.  Returns the file system
after the call and the function's boolean result; every failure path is
caught in the source, so the model is total. -/
def validateAndFixImage (ops : ImgOps) (fs : FS) (path : Chars) : FS × Bool :=
  match fsGet fs path with
  | none => (fs, false)
  | some bytes =>
    if ops.decodeOk bytes then (fs, true)
    else
      match ops.reencode bytes with
      | some png =>
        let fs1 := fsSet fs (fixedPath path) png
        let fs2 := fsErase (fsSet fs1 path png) (fixedPath path)
        (fs2, true)
      | none => (fs, false)

/-! ## Formula Extractor: `_extract_formula` -/

inductive FormulaKind where
  | omml
  | latex
  deriving DecidableEq, Repr

/-- Embedding of `DocumentExtractor._extract_formula` on an element, abstracted by
whether an `m:oMath` descendant exists, the (already substituted) OMML
text, and the concatenated `w:t` run text.  An OMML hit with empty text
is falsy in the source and falls through to the LaTeX check. -/
def extractFormula (hasOMath : Bool) (ommlText runsText : Chars) :
    Option (FormulaKind × Chars) :=
  if hasOMath ∧ ommlText ≠ [] then some (FormulaKind.omml, ommlText)
  else if containsLatexFormula runsText then some (FormulaKind.latex, runsText)
  else none

/-! ## Body Walker and Block Classifier: `_extract_from_docx` -/

/-- The format dictionary collected for non-empty paragraphs. -/
structure FormatInfo where
  styleName : Chars
  alignment : Chars
  lineSpacing : Option Int
  firstLineIndent : Option Int
  deriving DecidableEq, Repr

/-- A `python-docx` paragraph as the extractor reads it. -/
structure Para where
  text : Chars
  styleName : Chars
  alignment : Chars
  lineSpacing : Option Int
  firstLineIndent : Option Int
  drawings : List DrawingRef
  shapes : List VmlShape
  hasOMath : Bool
  ommlText : Chars
  runsText : Chars
  deriving DecidableEq, Repr

/-- An emitted content block with its `original_index`. -/
inductive Block where
  | text (content : Chars) (fmt : FormatInfo) (originalIndex : Nat)
  | heading (content : Chars) (level : Int) (fmt : FormatInfo) (originalIndex : Nat)
  | formula (content : Chars) (kind : FormulaKind) (fmt : Option FormatInfo)
      (originalIndex : Nat)
  | image (info : ImageInfo) (originalIndex : Nat)
  deriving DecidableEq, Repr

/-- The `original_index` stored on any block. -/
def Block.originalIndex : Block → Nat
  | .text _ _ i => i
  | .heading _ _ _ i => i
  | .formula _ _ _ i => i
  | .image _ i => i

/-- A direct child of the document body, keyed by its XML tag.  A `p`
child carries the paragraph that sits at that position of the body (the
walker under verification ignores it and performs the
`doc.paragraphs[current_index]` lookup instead).  `drawing` covers both
the `drawing` and `pict` tags; `omath` covers `oMath` and `oMathPara`;
`other` is any unhandled tag. -/
inductive BodyChild where
  | p (para : Para)
  | drawing (drawings : List DrawingRef) (shapes : List VmlShape)
  | omath (hasOMath : Bool) (ommlText : Chars) (runsText : Chars)
  | other
  deriving DecidableEq, Repr

/-- The `format_info` dictionary built from a paragraph. -/
def paraFmt (para : Para) : FormatInfo :=
  { styleName := para.styleName, alignment := para.alignment,
    lineSpacing := para.lineSpacing, firstLineIndent := para.firstLineIndent }

/-- The heading/plain-text decision for a non-empty, non-formula
paragraph: a style name starting with `Heading` whose
`replace('Heading ', '')` residue parses as an integer gives a heading
at that level, otherwise the `ValueError` fallback gives a text block. -/
def textOrHeadingBlock (para : Para) (i : Nat) : Block :=
  if listStartsWith ("Heading").data para.styleName then
    match pyInt (pyRemoveAll ("Heading ").data para.styleName) with
    | some n => Block.heading (stripChars para.text) n (paraFmt para) i
    | none => Block.text (stripChars para.text) (paraFmt para) i
  else Block.text (stripChars para.text) (paraFmt para) i

/-- Blocks appended for one paragraph body child, plus the advanced
filename supply.  Mirrors the `p` branch of `_extract_from_docx`:
empty text → images then possible formula; formula → single formula
block and `continue` (no image scan); otherwise heading/text block
followed by the paragraph's images. -/
def paraNewBlocks (rels : RelTable) (para : Para) (i : Nat) (counter : Nat) :
    List Block × Nat :=
  if stripChars para.text = [] then
    let pi := processImages rels para.drawings para.shapes counter
    let imgBlocks := pi.1.map (fun im => Block.image im i)
    match extractFormula para.hasOMath para.ommlText para.runsText with
    | some kc => (imgBlocks ++ [Block.formula kc.2 kc.1 none i], pi.2)
    | none => (imgBlocks, pi.2)
  else
    match extractFormula para.hasOMath para.ommlText para.runsText with
    | some kc => ([Block.formula kc.2 kc.1 (some (paraFmt para)) i], counter)
    | none =>
      let pi := processImages rels para.drawings para.shapes counter
      (textOrHeadingBlock para i :: pi.1.map (fun im => Block.image im i), pi.2)

/-- Walker state: emitted blocks, the `current_index` counter, and the
filename supply. -/
structure WalkState where
  blocks : List Block
  currentIndex : Nat
  counter : Nat
  deriving DecidableEq, Repr

/-- Process one paragraph body child (after the paragraph object has been
obtained): append its blocks and advance `current_index` once. -/
def classifyPara (rels : RelTable) (para : Para) (st : WalkState) : WalkState :=
  let nb := paraNewBlocks rels para st.currentIndex st.counter
  { blocks := st.blocks ++ nb.1, currentIndex := st.currentIndex + 1,
    counter := nb.2 }

/-- The standalone drawing branch: each resolved image is appended and
`current_index` is incremented inside the loop, one step per image. -/
def emitImagesAdvancing : List ImageInfo → Nat → List Block × Nat
  | [], i => ([], i)
  | im :: rest, i =>
    let t := emitImagesAdvancing rest (i + 1)
    (Block.image im i :: t.1, t.2)

/-- The paragraphs list `doc.paragraphs`: the `w:p` children of the body
in order. -/
def docParagraphs (doc : List BodyChild) : List Para :=
  doc.filterMap (fun c => match c with | BodyChild.p para => some para | _ => none)

/-- Process one body child.  For a `p` child the source indexes
`doc.paragraphs[current_index]` instead of wrapping the child element;
an out-of-range index raises `IndexError`, modelled as `Except.error`.
The temp-paragraph bookkeeping of the standalone-drawing branch
(`doc.add_paragraph` and the removal of the drawing element) is not
modelled; only its block emission and index arithmetic are. -/
def walkChild (rels : RelTable) (paras : List Para) (child : BodyChild)
    (st : WalkState) : Except Unit WalkState :=
  match child with
  | BodyChild.p _ =>
    match paras.get? st.currentIndex with
    | some para => Except.ok (classifyPara rels para st)
    | none => Except.error ()
  | BodyChild.drawing ds shs =>
    let pi := processImages rels ds shs st.counter
    let em := emitImagesAdvancing pi.1 st.currentIndex
    Except.ok { blocks := st.blocks ++ em.1, currentIndex := em.2, counter := pi.2 }
  | BodyChild.omath hm ot rt =>
    match extractFormula hm ot rt with
    | some kc =>
      Except.ok { blocks := st.blocks ++ [Block.formula kc.2 kc.1 none st.currentIndex],
                  currentIndex := st.currentIndex + 1, counter := st.counter }
    | none => Except.ok st
  | BodyChild.other => Except.ok st

/-- Walk all remaining body children. -/
def walkAll (rels : RelTable) (paras : List Para) :
    List BodyChild → WalkState → Except Unit WalkState
  | [], st => Except.ok st
  | c :: cs, st => (walkChild rels paras c st).bind (walkAll rels paras cs)

/-- Embedding of `DocumentExtractor._extract_from_docx`, down to its emitted
`content_blocks` list. -/
def extractFromDocx (rels : RelTable) (doc : List BodyChild) :
    Except Unit (List Block) :=
  (walkAll rels (docParagraphs doc) doc
      { blocks := [], currentIndex := 0, counter := 0 }).map WalkState.blocks

/-- Reference walker that processes each `p` child using the paragraph it
itself carries (the intended behaviour the claims compare against);
it cannot raise. -/
def walkChildOwn (rels : RelTable) (child : BodyChild) (st : WalkState) : WalkState :=
  match child with
  | BodyChild.p para => classifyPara rels para st
  | BodyChild.drawing ds shs =>
    let pi := processImages rels ds shs st.counter
    let em := emitImagesAdvancing pi.1 st.currentIndex
    { blocks := st.blocks ++ em.1, currentIndex := em.2, counter := pi.2 }
  | BodyChild.omath hm ot rt =>
    match extractFormula hm ot rt with
    | some kc =>
      { blocks := st.blocks ++ [Block.formula kc.2 kc.1 none st.currentIndex],
        currentIndex := st.currentIndex + 1, counter := st.counter }
    | none => st
  | BodyChild.other => st

/-- Fold of `walkChildOwn`. -/
def walkAllOwn (rels : RelTable) : List BodyChild → WalkState → WalkState
  | [], st => st
  | c :: cs, st => walkAllOwn rels cs (walkChildOwn rels c st)

/-- The reference walker's emitted blocks. -/
def extractOwn (rels : RelTable) (doc : List BodyChild) : List Block :=
  (walkAllOwn rels doc { blocks := [], currentIndex := 0, counter := 0 }).blocks

/-- A body child that neither is a standalone drawing nor advances the
index as a non-paragraph: paragraphs, unhandled tags, and standalone
math elements in which no formula is detected. -/
def safeChild : BodyChild → Bool
  | BodyChild.p _ => true
  | BodyChild.drawing _ _ => false
  | BodyChild.omath hm ot rt => extractFormula hm ot rt = none
  | BodyChild.other => true

/-! ## Helper lemmas: substrings -/

lemma listStartsWith_trans {p q s : Chars} (hpq : listStartsWith p q = true)
    (hqs : listStartsWith q s = true) : listStartsWith p s = true := by
  induction p generalizing q s with
  | nil => rfl
  | cons a ps ih =>
    cases q with
    | nil => simp [listStartsWith] at hpq
    | cons b qs =>
      cases s with
      | nil => simp [listStartsWith] at hqs
      | cons c cs =>
        simp only [listStartsWith, Bool.and_eq_true, decide_eq_true_eq] at hpq hqs ⊢
        exact ⟨hpq.1.trans hqs.1, ih hpq.2 hqs.2⟩

lemma subFind_starts {pat : Chars} : ∀ {s : Chars} {i : Nat},
    subFind pat s = some i → listStartsWith pat (s.drop i) = true := by
  intro s
  induction s with
  | nil =>
    intro i h
    simp only [subFind] at h
    split at h
    · cases h; simpa using ‹listStartsWith pat [] = true›
    · cases h
  | cons c rest ih =>
    intro i h
    simp only [subFind] at h
    split at h
    · cases h; simpa using ‹listStartsWith pat (c :: rest) = true›
    · rcases Option.map_eq_some'.mp h with ⟨j, hj, rfl⟩
      simpa using ih hj

lemma starts_drop_subFind {pat : Chars} : ∀ {s : Chars} {i : Nat},
    listStartsWith pat (s.drop i) = true → (subFind pat s).isSome = true := by
  intro s
  induction s with
  | nil =>
    intro i h
    simp only [List.drop_nil] at h
    simp [subFind, h]
  | cons c rest ih =>
    intro i h
    cases i with
    | zero =>
      simp only [List.drop_zero] at h
      simp [subFind, h]
    | succ j =>
      simp only [List.drop_succ_cons] at h
      have := ih h
      simp only [subFind]
      split
      · rfl
      · simpa using this

lemma inStr_mono {p q s : Chars} (hpq : listStartsWith p q = true)
    (h : inStr q s = true) : inStr p s = true := by
  unfold inStr at h ⊢
  rcases Option.isSome_iff_exists.mp h with ⟨i, hi⟩
  exact starts_drop_subFind (listStartsWith_trans hpq (subFind_starts hi))

lemma pairedMarkerHit_start {text a b : Chars}
    (h : pairedMarkerHit text a b = true) : inStr a text = true := by
  unfold pairedMarkerHit at h
  split at h
  · rename_i hguard
    simp only [Bool.and_eq_true] at hguard
    exact hguard.1
  · cases h

lemma listStartsWith_append_self : ∀ (p t : Chars),
    listStartsWith p (p ++ t) = true := by
  intro p t
  induction p with
  | nil => rfl
  | cons a ps ih => simp [listStartsWith, ih]

lemma startsWith_cons_mem {c : Char} {ps t : Chars}
    (h : listStartsWith (c :: ps) t = true) : c ∈ t := by
  cases t with
  | nil => simp [listStartsWith] at h
  | cons a t' =>
    simp only [listStartsWith, Bool.and_eq_true, decide_eq_true_eq] at h
    exact h.1 ▸ List.mem_cons_self a t'

lemma subFind_none_of_head_notMem {c : Char} {ps : Chars} :
    ∀ {s : Chars}, c ∉ s → subFind (c :: ps) s = none := by
  intro s
  induction s with
  | nil => intro _; rfl
  | cons a rest ih =>
    intro hmem
    have hca : ¬(c = a) := fun h => hmem (h ▸ List.mem_cons_self a rest)
    have hcr : c ∉ rest := fun h => hmem (List.mem_cons_of_mem a h)
    simp only [subFind, listStartsWith, ih hcr]
    rw [if_neg]
    · rfl
    · simp [hca]

lemma subFind_none_cons {pat : Chars} {c : Char} {cs : Chars}
    (h : subFind pat (c :: cs) = none) : subFind pat cs = none := by
  simp only [subFind] at h
  split at h
  · cases h
  · exact Option.map_eq_none'.mp h

lemma removeAllAux_no_occ {pat : Chars} : ∀ (fuel : Nat) (s : Chars),
    subFind pat s = none → removeAllAux pat fuel s = s := by
  intro fuel
  induction fuel with
  | zero => intro s _; rfl
  | succ f ih =>
    intro s hs
    cases s with
    | nil => rfl
    | cons c rest =>
      have hns : listStartsWith pat (c :: rest) = false := by
        by_contra hc
        have : listStartsWith pat (c :: rest) = true :=
          eq_true_of_ne_false (by simpa using hc)
        simp [subFind, this] at hs
      simp only [removeAllAux, hns]
      rw [if_neg (by simp [hns])]
      rw [ih rest (subFind_none_cons hs)]

lemma pyRemoveAll_clean {pat t : Chars} (hne : pat ≠ [])
    (hno : subFind pat t = none) : pyRemoveAll pat (pat ++ t) = t := by
  cases pat with
  | nil => exact absurd rfl hne
  | cons a ps =>
    show removeAllAux (a :: ps) ((a :: ps) ++ t).length ((a :: ps) ++ t) = t
    have hlen : ((a :: ps) ++ t).length = (ps ++ t).length + 1 := by
      simp
    rw [hlen]
    have hstart : listStartsWith (a :: ps) ((a :: ps) ++ t) = true :=
      listStartsWith_append_self _ _
    show removeAllAux (a :: ps) ((ps ++ t).length + 1) (a :: (ps ++ t)) = t
    simp only [removeAllAux]
    rw [if_pos (by simpa using hstart)]
    have hdrop : List.drop (a :: ps).length (a :: (ps ++ t)) = t := by
      show List.drop ((a :: ps).length) ((a :: ps) ++ t) = t
      exact List.drop_left _ _
    rw [hdrop]
    exact removeAllAux_no_occ _ _ hno

/-! ## Helper lemmas: `pyInt` character classes -/

lemma parseDigitsAux_chars : ∀ {s : Chars} {acc : Nat} {b : Bool} {n : Nat},
    parseDigitsAux acc b s = some n →
    ∀ c ∈ s, (digitVal c).isSome = true ∨ c = '_' := by
  intro s
  induction s with
  | nil => intro _ _ _ _ c hc; cases hc
  | cons a rest ih =>
    intro acc b n h c hc
    rcases hd : digitVal a with _ | d
    · simp only [parseDigitsAux, hd] at h
      by_cases hcond : a = '_' ∧ b = false
      · rw [if_pos hcond] at h
        rcases List.mem_cons.mp hc with rfl | hcr
        · exact Or.inr hcond.1
        · exact ih h c hcr
      · rw [if_neg hcond] at h; cases h
    · simp only [parseDigitsAux, hd] at h
      rcases List.mem_cons.mp hc with rfl | hcr
      · exact Or.inl (by simp [hd])
      · exact ih h c hcr

lemma parseDigits_chars {s : Chars} {n : Nat} (h : parseDigits s = some n) :
    ∀ c ∈ s, (digitVal c).isSome = true ∨ c = '_' := by
  cases s with
  | nil => cases h
  | cons a rest =>
    intro c hc
    rcases hd : digitVal a with _ | d
    · simp only [parseDigits, hd] at h; cases h
    · simp only [parseDigits, hd] at h
      rcases List.mem_cons.mp hc with rfl | hcr
      · exact Or.inl (by simp [hd])
      · exact parseDigitsAux_chars h c hcr

lemma mem_dropWhile_or {p : Char → Bool} {c : Char} :
    ∀ {s : Chars}, c ∈ s → c ∈ s.dropWhile p ∨ p c = true := by
  intro s
  induction s with
  | nil => intro hc; cases hc
  | cons a rest ih =>
    intro hc
    by_cases hpa : p a = true
    · rw [List.dropWhile_cons_of_pos hpa]
      rcases List.mem_cons.mp hc with rfl | hcr
      · exact Or.inr hpa
      · exact ih hcr
    · rw [List.dropWhile_cons_of_neg hpa]
      exact Or.inl hc

lemma mem_stripChars_or {c : Char} {s : Chars} (hc : c ∈ s) :
    c ∈ stripChars s ∨ isWsChar c = true := by
  unfold stripChars
  rcases mem_dropWhile_or (p := isWsChar) hc with h1 | h1
  · have h2 : c ∈ (s.dropWhile isWsChar).reverse := List.mem_reverse.mpr h1
    rcases mem_dropWhile_or (p := isWsChar) h2 with h3 | h3
    · exact Or.inl (List.mem_reverse.mpr h3)
    · exact Or.inr h3
  · exact Or.inr h1

lemma pyInt_chars {s : Chars} {n : Int} (h : pyInt s = some n) :
    ∀ c ∈ s, isWsChar c = true ∨ c = '+' ∨ c = '-' ∨
      (digitVal c).isSome = true ∨ c = '_' := by
  intro c hc
  rcases mem_stripChars_or hc with hmem | hws
  · rcases hstrip : stripChars s with _ | ⟨a, rest⟩
    · rw [hstrip] at hmem; cases hmem
    · simp only [pyInt, hstrip] at h
      rw [hstrip] at hmem
      by_cases ha : a = '+'
      · rw [if_pos ha] at h
        rcases Option.map_eq_some'.mp h with ⟨m, hm, _⟩
        rcases List.mem_cons.mp hmem with rfl | hcr
        · exact Or.inr (Or.inl ha)
        · rcases parseDigits_chars hm c hcr with hdig | hus
          · exact Or.inr (Or.inr (Or.inr (Or.inl hdig)))
          · exact Or.inr (Or.inr (Or.inr (Or.inr hus)))
      · rw [if_neg ha] at h
        by_cases hb : a = '-'
        · rw [if_pos hb] at h
          rcases Option.map_eq_some'.mp h with ⟨m, hm, _⟩
          rcases List.mem_cons.mp hmem with rfl | hcr
          · exact Or.inr (Or.inr (Or.inl hb))
          · rcases parseDigits_chars hm c hcr with hdig | hus
            · exact Or.inr (Or.inr (Or.inr (Or.inl hdig)))
            · exact Or.inr (Or.inr (Or.inr (Or.inr hus)))
        · rw [if_neg hb] at h
          rcases Option.map_eq_some'.mp h with ⟨m, hm, _⟩
          rcases parseDigits_chars hm c hmem with hdig | hus
          · exact Or.inr (Or.inr (Or.inr (Or.inl hdig)))
          · exact Or.inr (Or.inr (Or.inr (Or.inr hus)))
  · exact Or.inl hws

lemma pyInt_no_H {s : Chars} {n : Int} (h : pyInt s = some n) : 'H' ∉ s := by
  intro hmem
  rcases pyInt_chars h 'H' hmem with hws | hp | hm | hd | hu
  · simp [isWsChar] at hws
  · cases hp
  · cases hm
  · simp [digitVal] at hd
  · cases hu

/-- The key `Heading` fact: when the residue after the prefix parses as
an integer, `styleName.replace('Heading ', '')` is exactly that residue. -/
lemma pyRemoveAll_heading {suffix : Chars} {n : Int}
    (h : pyInt suffix = some n) :
    pyRemoveAll (("Heading ").data) ((("Heading ").data) ++ suffix) = suffix := by
  apply pyRemoveAll_clean (by decide)
  exact subFind_none_of_head_notMem (pyInt_no_H h)

/-! ## Helper lemmas: index bookkeeping of the walker -/

lemma pairwise_idx_of_const {l : List Block} {i : Nat}
    (h : ∀ b ∈ l, b.originalIndex = i) :
    l.Pairwise (fun a b => a.originalIndex ≤ b.originalIndex) := by
  induction l with
  | nil => exact List.Pairwise.nil
  | cons a t ih =>
    refine List.Pairwise.cons (fun b hb => ?_) (ih (fun b hb => h b (List.mem_cons_of_mem a hb)))
    rw [h a (List.mem_cons_self a t), h b (List.mem_cons_of_mem a hb)]

lemma emitImagesAdvancing_spec : ∀ (imgs : List ImageInfo) (i : Nat),
    (emitImagesAdvancing imgs i).2 = i + imgs.length ∧
    (∀ b ∈ (emitImagesAdvancing imgs i).1,
        i ≤ b.originalIndex ∧ b.originalIndex < i + imgs.length) ∧
    (emitImagesAdvancing imgs i).1.Pairwise
      (fun a b => a.originalIndex ≤ b.originalIndex) ∧
    (emitImagesAdvancing imgs i).1.length = imgs.length := by
  intro imgs
  induction imgs with
  | nil => intro i; exact ⟨rfl, fun b hb => absurd hb (List.not_mem_nil b), List.Pairwise.nil, rfl⟩
  | cons im rest ih =>
    intro i
    obtain ⟨hlen2, hbound, hpw, hlen1⟩ := ih (i + 1)
    simp only [emitImagesAdvancing]
    refine ⟨?_, ?_, ?_, ?_⟩
    · rw [hlen2, List.length_cons]; omega
    · intro b hb
      rw [List.length_cons]
      rcases List.mem_cons.mp hb with rfl | hbr
      · have h0 : (Block.image im i).originalIndex = i := rfl
        rw [h0]
        omega
      · obtain ⟨h1, h2⟩ := hbound b hbr
        omega
    · refine List.Pairwise.cons (fun b hb => ?_) hpw
      have h1 := (hbound b hb).1
      have h0 : (Block.image im i).originalIndex = i := rfl
      rw [h0]
      omega
    · simp [hlen1]

lemma textOrHeadingBlock_idx (para : Para) (i : Nat) :
    (textOrHeadingBlock para i).originalIndex = i := by
  unfold textOrHeadingBlock
  split
  · rcases pyInt (pyRemoveAll (("Heading ").data) para.styleName) with _ | m <;> rfl
  · rfl

lemma paraNewBlocks_idx (rels : RelTable) (para : Para) (i : Nat) (cnt : Nat) :
    ∀ b ∈ (paraNewBlocks rels para i cnt).1, b.originalIndex = i := by
  intro b hb
  unfold paraNewBlocks at hb
  split at hb
  · rcases hf : extractFormula para.hasOMath para.ommlText para.runsText with _ | kc
    · rw [hf] at hb
      simp only at hb
      rcases List.mem_map.mp hb with ⟨im, _, rfl⟩
      rfl
    · rw [hf] at hb
      simp only at hb
      rcases List.mem_append.mp hb with h1 | h1
      · rcases List.mem_map.mp h1 with ⟨im, _, rfl⟩
        rfl
      · rcases List.mem_singleton.mp h1 with rfl
        rfl
  · rcases hf : extractFormula para.hasOMath para.ommlText para.runsText with _ | kc
    · rw [hf] at hb
      simp only at hb
      rcases List.mem_cons.mp hb with rfl | h1
      · exact textOrHeadingBlock_idx para i
      · rcases List.mem_map.mp h1 with ⟨im, _, rfl⟩
        rfl
    · rw [hf] at hb
      simp only at hb
      rcases List.mem_singleton.mp hb with rfl
      rfl

/-- Index invariant carried through the walk: already-emitted indices are
sorted and bounded by the counter. -/
def IdxInv (st : WalkState) : Prop :=
  st.blocks.Pairwise (fun a b => a.originalIndex ≤ b.originalIndex) ∧
  ∀ b ∈ st.blocks, b.originalIndex ≤ st.currentIndex

lemma IdxInv_append (st : WalkState) (tail : List Block) (newIdx : Nat)
    (hinv : IdxInv st)
    (hpw : tail.Pairwise (fun a b => a.originalIndex ≤ b.originalIndex))
    (hlo : ∀ b ∈ tail, st.currentIndex ≤ b.originalIndex)
    (hhi : ∀ b ∈ tail, b.originalIndex ≤ newIdx)
    (hmono : st.currentIndex ≤ newIdx) :
    IdxInv { st with blocks := st.blocks ++ tail, currentIndex := newIdx } := by
  obtain ⟨hpw0, hb0⟩ := hinv
  constructor
  · rw [List.pairwise_append]
    exact ⟨hpw0, hpw, fun a ha b hb => (hb0 a ha).trans (hlo b hb)⟩
  · intro b hb
    rcases List.mem_append.mp hb with h1 | h1
    · exact (hb0 b h1).trans hmono
    · exact hhi b h1

lemma walkChild_inv {rels : RelTable} {paras : List Para} {c : BodyChild}
    {st st2 : WalkState} (h : walkChild rels paras c st = Except.ok st2)
    (hinv : IdxInv st) : IdxInv st2 := by
  cases c with
  | p para =>
    simp only [walkChild] at h
    rcases hl : paras.get? st.currentIndex with _ | q
    · rw [hl] at h; cases h
    · rw [hl] at h
      cases h
      have hidx := paraNewBlocks_idx rels q st.currentIndex st.counter
      have := IdxInv_append st ((paraNewBlocks rels q st.currentIndex st.counter).1)
        (st.currentIndex + 1) hinv
        (pairwise_idx_of_const hidx)
        (fun b hb => (hidx b hb).ge)
        (fun b hb => (hidx b hb).le.trans (Nat.le_succ _))
        (Nat.le_succ _)
      exact this
  | drawing ds shs =>
    simp only [walkChild] at h
    cases h
    obtain ⟨hlen2, hbound, hpw, _⟩ :=
      emitImagesAdvancing_spec (processImages rels ds shs st.counter).1 st.currentIndex
    refine IdxInv_append st _ _ hinv hpw (fun b hb => (hbound b hb).1) ?_ ?_
    · intro b hb
      have := (hbound b hb).2
      omega
    · omega
  | omath hm ot rt =>
    simp only [walkChild] at h
    rcases hf : extractFormula hm ot rt with _ | kc
    · rw [hf] at h; cases h; exact hinv
    · rw [hf] at h
      cases h
      refine IdxInv_append st _ _ hinv ?_ ?_ ?_ (Nat.le_succ _)
      · exact pairwise_idx_of_const (by intro b hb; rcases List.mem_singleton.mp hb with rfl; rfl)
      · intro b hb; rcases List.mem_singleton.mp hb with rfl; exact Nat.le_refl _
      · intro b hb; rcases List.mem_singleton.mp hb with rfl; exact Nat.le_succ _
  | other =>
    simp only [walkChild] at h
    cases h
    exact hinv

lemma walkAll_inv {rels : RelTable} {paras : List Para} :
    ∀ {doc : List BodyChild} {st st2 : WalkState},
      walkAll rels paras doc st = Except.ok st2 → IdxInv st → IdxInv st2 := by
  intro doc
  induction doc with
  | nil =>
    intro st st2 h hinv
    cases h
    exact hinv
  | cons c cs ih =>
    intro st st2 h hinv
    simp only [walkAll] at h
    rcases hc : walkChild rels paras c st with _ | stMid
    · rw [hc] at h; cases h
    · rw [hc] at h
      exact ih h (walkChild_inv hc hinv)

/-! ## Helper lemmas: fallback tier (`runTier3`) -/

lemma runTier3_no_image : ∀ {rels : RelTable} {st : PIState},
    (∀ e ∈ rels, e.2.reltypeHasImage = false) → runTier3 rels st = st := by
  intro rels
  induction rels with
  | nil => intro st _; rfl
  | cons e es ih =>
    intro st hall
    simp only [runTier3]
    rw [if_neg]
    · exact ih (fun x hx => hall x (List.mem_cons_of_mem e hx))
    · intro hcond
      have := hall e (List.mem_cons_self e es)
      rw [this] at hcond
      cases hcond.1

lemma runTier3_extends : ∀ (rels : RelTable) (st : PIState),
    ∃ t, (runTier3 rels st).results = st.results ++ t := by
  intro rels
  induction rels with
  | nil => intro st; exact ⟨[], by simp [runTier3]⟩
  | cons e es ih =>
    intro st
    simp only [runTier3]
    split
    · obtain ⟨t, ht⟩ := ih _
      exact ⟨_, by rw [ht, List.append_assoc]⟩
    · exact ih st

lemma runTier3_hits : ∀ {rels : RelTable} {st : PIState},
    (∃ e ∈ rels, e.2.reltypeHasImage = true ∧ e.1 ∉ st.processed) →
    (runTier3 rels st).results ≠ [] := by
  intro rels
  induction rels with
  | nil =>
    intro st h
    rcases h with ⟨e, he, _⟩
    cases he
  | cons e es ih =>
    intro st h
    simp only [runTier3]
    by_cases hcond : e.2.reltypeHasImage = true ∧ e.1 ∉ st.processed
    · rw [if_pos hcond]
      obtain ⟨t, ht⟩ := runTier3_extends es _
      rw [ht]
      simp
    · rw [if_neg hcond]
      rcases h with ⟨f, hf, himg, hproc⟩
      rcases List.mem_cons.mp hf with rfl | hfr
      · exact absurd ⟨himg, hproc⟩ hcond
      · exact ih ⟨f, hfr, himg, hproc⟩

/-! ## Helper lemmas: de-duplication across the three tiers -/

/-- Resolver invariant: emitted relationship ids are pairwise distinct and
all recorded in the `processed_rids` set. -/
def PIInv (st : PIState) : Prop :=
  (st.results.map ImageInfo.rid).Nodup ∧
  ∀ im ∈ st.results, im.rid ∈ st.processed

lemma PIInv_append {st : PIState} (hinv : PIInv st) (info : ImageInfo)
    (hnew : info.rid ∉ st.processed) (cnt : Nat) :
    PIInv { results := st.results ++ [info],
            processed := st.processed ++ [info.rid], counter := cnt } := by
  obtain ⟨hnd, hmem⟩ := hinv
  constructor
  · rw [List.map_append, List.nodup_append]
    refine ⟨hnd, List.nodup_singleton _, fun a ha => ?_⟩
    rcases List.mem_map.mp ha with ⟨im, him, rfl⟩
    simp only [List.map_cons, List.map_nil, List.mem_singleton]
    intro heq
    exact hnew (heq ▸ hmem im him)
  · intro im him
    rcases List.mem_append.mp him with h1 | h1
    · exact List.mem_append_left _ (hmem im h1)
    · rcases List.mem_singleton.mp h1 with rfl
      exact List.mem_append_right _ (List.mem_singleton.mpr rfl)

lemma runTier1_inv {rels : RelTable} : ∀ {ds : List DrawingRef} {st : PIState},
    PIInv st → PIInv (runTier1 rels ds st) := by
  intro ds
  induction ds with
  | nil => intro st h; exact h
  | cons d rest ih =>
    intro st h
    simp only [runTier1]
    split
    · rcases hl : relLookup rels d.rid with _ | rel
      · exact ih h
      · rename_i hcond
        exact ih (PIInv_append h _ hcond.2 _)
    · exact ih h

lemma runTier2_inv {rels : RelTable} : ∀ {shs : List VmlShape} {st : PIState},
    PIInv st → PIInv (runTier2 rels shs st) := by
  intro shs
  induction shs with
  | nil => intro st h; exact h
  | cons sh rest ih =>
    intro st h
    simp only [runTier2]
    rcases sh.rid with _ | r
    · exact ih h
    · simp only
      split
      · rcases hl : relLookup rels r with _ | rel
        · exact ih h
        · rename_i hcond
          exact ih (PIInv_append h _ hcond.2 _)
      · exact ih h

lemma runTier3_inv : ∀ {rels : RelTable} {st : PIState},
    PIInv st → PIInv (runTier3 rels st) := by
  intro rels
  induction rels with
  | nil => intro st h; exact h
  | cons e es ih =>
    intro st h
    simp only [runTier3]
    split
    · rename_i hcond
      exact ih (PIInv_append h _ hcond.2 _)
    · exact ih h

/-! ## Helper lemmas: file-system model -/

lemma fsGet_fsSet_self (fs : FS) (p : Chars) (v : Bytes) :
    fsGet (fsSet fs p v) p = some v := by
  simp [fsSet, fsGet]

lemma fsGet_fsErase_self : ∀ (fs : FS) (p : Chars),
    fsGet (fsErase fs p) p = none := by
  intro fs p
  induction fs with
  | nil => rfl
  | cons e rest ih =>
    by_cases he : e.1 = p
    · simpa [fsErase, he] using (by simpa [fsErase] using ih)
    · simp only [fsErase, List.filter_cons]
      rw [if_pos (by simp [he])]
      simp only [fsGet, if_neg he]
      simpa [fsErase] using ih

lemma fsGet_fsErase_ne (fs : FS) {p q : Chars} (h : p ≠ q) :
    fsGet (fsErase fs q) p = fsGet fs p := by
  induction fs with
  | nil => rfl
  | cons e rest ih =>
    by_cases he : e.1 = q
    · simp only [fsErase, List.filter_cons]
      rw [if_neg (by simp [he])]
      rw [show fsErase rest q = List.filter (fun x => decide (x.1 ≠ q)) rest from rfl] at ih
      rw [ih]
      simp only [fsGet]
      rw [if_neg (by rw [he]; exact fun hh => h hh.symm)]
    · simp only [fsErase, List.filter_cons]
      rw [if_pos (by simp [he])]
      simp only [fsGet]
      split
      · rfl
      · simpa [fsErase] using ih

/-! ## Helper lemmas: paragraph-list lookup -/

lemma drop_cons_get : ∀ {α : Type} (l : List α) (i : Nat) (x : α) (xs : List α),
    l.drop i = x :: xs → l.get? i = some x ∧ l.drop (i + 1) = xs := by
  intro α l
  induction l with
  | nil => intro i x xs h; rw [List.drop_nil] at h; cases h
  | cons a t ih =>
    intro i x xs h
    cases i with
    | zero =>
      rw [List.drop_zero] at h
      cases h
      exact ⟨rfl, by rw [List.drop_succ_cons, List.drop_zero]⟩
    | succ j =>
      rw [List.drop_succ_cons] at h
      obtain ⟨h1, h2⟩ := ih j x xs h
      exact ⟨h1, by rw [List.drop_succ_cons]; exact h2⟩

lemma walk_eq_own (rels : RelTable) (paras : List Para) :
    ∀ (docRest : List BodyChild) (st : WalkState),
      (∀ c ∈ docRest, safeChild c = true) →
      paras.drop st.currentIndex = docParagraphs docRest →
      walkAll rels paras docRest st = Except.ok (walkAllOwn rels docRest st) := by
  intro docRest
  induction docRest with
  | nil => intro st _ _; rfl
  | cons c cs ih =>
    intro st hsafe hdrop
    cases c with
    | p para =>
      have hdp : docParagraphs (BodyChild.p para :: cs) = para :: docParagraphs cs := by
        simp [docParagraphs]
      rw [hdp] at hdrop
      obtain ⟨hget, hdrop2⟩ := drop_cons_get paras st.currentIndex para _ hdrop
      simp only [walkAll, walkChild, hget]
      have hidx : (classifyPara rels para st).currentIndex = st.currentIndex + 1 := rfl
      show walkAll rels paras cs (classifyPara rels para st)
          = Except.ok (walkAllOwn rels (BodyChild.p para :: cs) st)
      rw [ih (classifyPara rels para st)
        (fun x hx => hsafe x (List.mem_cons_of_mem _ hx)) (by rw [hidx]; exact hdrop2)]
      rfl
    | drawing ds shs =>
      have := hsafe (BodyChild.drawing ds shs) (List.mem_cons_self _ _)
      simp [safeChild] at this
    | omath hm ot rt =>
      have hs := hsafe (BodyChild.omath hm ot rt) (List.mem_cons_self _ _)
      simp only [safeChild, decide_eq_true_eq] at hs
      have hdp : docParagraphs (BodyChild.omath hm ot rt :: cs) = docParagraphs cs := by
        simp [docParagraphs]
      rw [hdp] at hdrop
      simp only [walkAll, walkChild, walkAllOwn, walkChildOwn, hs]
      exact ih st (fun x hx => hsafe x (List.mem_cons_of_mem _ hx)) hdrop
    | other =>
      have hdp : docParagraphs (BodyChild.other :: cs) = docParagraphs cs := by
        simp [docParagraphs]
      rw [hdp] at hdrop
      simp only [walkAll, walkChild, walkAllOwn, walkChildOwn]
      exact ih st (fun x hx => hsafe x (List.mem_cons_of_mem _ hx)) hdrop

/-! ## Helper lemmas: the two-token branch of the LaTeX detector -/

lemma two_mem_length {α : Type} {l : List α} {a b : α}
    (ha : a ∈ l) (hb : b ∈ l) (hne : a ≠ b) : 2 ≤ l.length := by
  cases l with
  | nil => cases ha
  | cons x t =>
    cases t with
    | nil =>
      rcases List.mem_singleton.mp ha with rfl
      rcases List.mem_singleton.mp hb with rfl
      exact absurd rfl hne
    | cons y t2 => simp [List.length_cons]

lemma nodup_const_length_le_one {α : Type} {l : List α} {a : α}
    (hnd : l.Nodup) (hall : ∀ x ∈ l, x = a) : l.length ≤ 1 := by
  cases l with
  | nil => simp
  | cons x t =>
    cases t with
    | nil => simp
    | cons y t2 =>
      have hx : x = a := hall x (List.mem_cons_self _ _)
      have hy : y = a := hall y (List.mem_cons_of_mem _ (List.mem_cons_self _ _))
      rw [List.nodup_cons] at hnd
      exact absurd (by rw [hx, hy]; exact List.mem_cons_self _ _) hnd.1

lemma two_tokens_formula {text : Chars}
    (h : ∃ c1 ∈ latexCommands, ∃ c2 ∈ latexCommands,
        c1 ≠ c2 ∧ inStr c1 text = true ∧ inStr c2 text = true) :
    containsLatexFormula text = true := by
  rcases h with ⟨c1, h1, c2, h2, hne, hin1, hin2⟩
  have hf1 : c1 ∈ latexCommands.filter (fun c => inStr c text) :=
    List.mem_filter.mpr ⟨h1, hin1⟩
  have hf2 : c2 ∈ latexCommands.filter (fun c => inStr c text) :=
    List.mem_filter.mpr ⟨h2, hin2⟩
  have hlen : 2 ≤ (latexCommands.filter (fun c => inStr c text)).length :=
    two_mem_length hf1 hf2 hne
  unfold containsLatexFormula
  split
  · rfl
  · simp [hlen]

/-! ## Concrete fixtures -/

/-- The walker's starting state. -/
def initWalkState : WalkState := { blocks := [], currentIndex := 0, counter := 0 }

def ridOne : Chars := ("rId1").data

def ridTwo : Chars := ("rId2").data

def pngType : Chars := ("image/png").data

def relOne : Rel := { reltypeHasImage := true, contentType := pngType, blob := [1] }

def relTwo : Rel := { reltypeHasImage := true, contentType := pngType, blob := [2, 2] }

def exRelsC1 : RelTable := [(ridOne, relOne), (ridTwo, relTwo)]

/-- A document whose single body child is a standalone drawing holding two
embedded images. -/
def exDocC1 : List BodyChild :=
  [BodyChild.drawing
    [{ rid := ridOne, pos := PosInfo.modern ("inline") },
     { rid := ridTwo, pos := PosInfo.modern ("inline") }] []]

def exImgC1a : ImageInfo :=
  { rid := ridOne, filename := ("image_0.png").data,
    posInfo := PosInfo.modern ("inline"), fileSize := 1, contentType := pngType }

def exImgC1b : ImageInfo :=
  { rid := ridTwo, filename := ("image_1.png").data,
    posInfo := PosInfo.modern ("inline"), fileSize := 2, contentType := pngType }

def exBlocksC1 : List Block := [Block.image exImgC1a 0, Block.image exImgC1b 1]

/-- A paragraph with no visible text, no drawing, no shape, no formula. -/
def exParaC2 : Para :=
  { text := [], styleName := ("Normal").data, alignment := ("None").data,
    lineSpacing := none, firstLineIndent := none, drawings := [], shapes := [],
    hasOMath := false, ommlText := [], runsText := [] }

def exRelsC2 : RelTable := [(ridOne, relOne)]

def exImgC2 : ImageInfo :=
  { rid := ridOne, filename := ("image_0.png").data, posInfo := PosInfo.unknown,
    fileSize := 1, contentType := pngType }

/-- A non-empty paragraph whose text trips the LaTeX marker detector and
which also carries a resolvable inline drawing. -/
def exParaC3 : Para :=
  { text := ("a \\frac b \\alpha").data, styleName := ("Normal").data,
    alignment := ("None").data, lineSpacing := none, firstLineIndent := none,
    drawings := [{ rid := ridOne, pos := PosInfo.modern ("inline") }], shapes := [],
    hasOMath := false, ommlText := [], runsText := ("a \\frac b \\alpha").data }

def exRelsC3 : RelTable := [(ridOne, relOne)]

/-- A plain text paragraph. -/
def exParaHello : Para :=
  { text := ("hello").data, styleName := ("Normal").data, alignment := ("None").data,
    lineSpacing := none, firstLineIndent := none, drawings := [], shapes := [],
    hasOMath := false, ommlText := [], runsText := ("hello").data }

/-- A `Heading 2` paragraph. -/
def exParaH2 : Para :=
  { text := ("Intro").data, styleName := ("Heading 2").data,
    alignment := ("None").data, lineSpacing := none, firstLineIndent := none,
    drawings := [], shapes := [], hasOMath := false, ommlText := [],
    runsText := ("Intro").data }

/-- A `Heading Custom` paragraph (non-integer suffix). -/
def exParaHC : Para :=
  { text := ("Intro").data, styleName := ("Heading Custom").data,
    alignment := ("None").data, lineSpacing := none, firstLineIndent := none,
    drawings := [], shapes := [], hasOMath := false, ommlText := [],
    runsText := ("Intro").data }

/-- A standalone math element that yields a formula, followed by a
paragraph: the lookup index then exceeds the paragraph list. -/
def exDocC9 : List BodyChild :=
  [BodyChild.omath true (("x=1").data) [], BodyChild.p exParaHello]

/-- A document of safe children for the positive half of C9. -/
def exDocC9w : List BodyChild := [BodyChild.p exParaHello, BodyChild.other]

def exPathC8 : Chars := ("out/a.png").data

def exOpsC8 : ImgOps :=
  { decodeOk := fun b => decide (b ≠ [0]),
    reencode := fun b => if b = [0] then some [7, 7] else none }

def exFsC8 : FS := [(exPathC8, [0])]

/-! ## Claims -/

/-- C1 (counterexample): the claim says `current_index` is incremented
exactly once per body child and that each block's `original_index` equals
the zero-based position of the body child that produced it.  On a
document whose single body child is a standalone drawing with two
embedded images, the code emits two blocks with `original_index` `0` and
`1` and leaves the counter at `2`: the second block's index is `1`
although its producing child sits at position `0`, and the counter
advanced twice for one child. -/
theorem c1_index_advance_counterexample :
    exDocC1.length = 1 ∧
    (walkAll exRelsC1 (docParagraphs exDocC1) exDocC1 initWalkState).map
        WalkState.currentIndex = Except.ok 2 ∧
    (extractFromDocx exRelsC1 exDocC1).map (fun bs => bs.map Block.originalIndex)
        = Except.ok [0, 1] :=
  ⟨rfl, rfl, rfl⟩

/-- C1 (amended): `original_index` is non-decreasing across the emitted
block list, and the counter advances exactly once per paragraph body
child; but a standalone drawing child advances it once per emitted image
block (`k` times for `k` blocks, each block taking a successive index),
and a standalone math child advances it only when a formula block is
emitted (zero times otherwise) — in both standalone cases the advance
equals the number of blocks the child emitted. -/
theorem c1_index_advance_amended (rels : RelTable) (paras : List Para)
    (st : WalkState) :
    (∀ para st2, walkChild rels paras (BodyChild.p para) st = Except.ok st2 →
      st2.currentIndex = st.currentIndex + 1) ∧
    (∀ ds shs st2, walkChild rels paras (BodyChild.drawing ds shs) st = Except.ok st2 →
      st2.currentIndex = st.currentIndex + (st2.blocks.length - st.blocks.length)) ∧
    (∀ hm ot rt st2, walkChild rels paras (BodyChild.omath hm ot rt) st = Except.ok st2 →
      st2.currentIndex = st.currentIndex + (st2.blocks.length - st.blocks.length)) ∧
    (∀ doc blocks, extractFromDocx rels doc = Except.ok blocks →
      List.Pairwise (fun a b => a ≤ b) (blocks.map Block.originalIndex)) := by
  refine ⟨?_, ?_, ?_, ?_⟩
  · intro para st2 h
    simp only [walkChild] at h
    rcases hl : paras.get? st.currentIndex with _ | q
    · rw [hl] at h; cases h
    · rw [hl] at h
      cases h
      rfl
  · intro ds shs st2 h
    simp only [walkChild] at h
    cases h
    obtain ⟨hlen2, _, _, hlen1⟩ :=
      emitImagesAdvancing_spec (processImages rels ds shs st.counter).1 st.currentIndex
    dsimp only
    rw [List.length_append]
    omega
  · intro hm ot rt st2 h
    simp only [walkChild] at h
    rcases hf : extractFormula hm ot rt with _ | kc
    · rw [hf] at h
      cases h
      simp
    · rw [hf] at h
      cases h
      dsimp only
      rw [List.length_append]
      simp
  · intro doc blocks h
    unfold extractFromDocx at h
    rcases hw : walkAll rels (docParagraphs doc) doc
        { blocks := [], currentIndex := 0, counter := 0 } with _ | stEnd
    · rw [hw] at h; cases h
    · rw [hw] at h
      simp only [Except.map] at h
      cases h
      have hinv := walkAll_inv hw
        ⟨List.Pairwise.nil, fun b hb => absurd hb (List.not_mem_nil b)⟩
      rw [List.pairwise_map]
      exact hinv.1

/-- C1 (witness): a paragraph child advances the counter by one, and the
indices of the counterexample run are still non-decreasing. -/
theorem c1_index_advance_witness :
    (classifyPara exRelsC1 exParaHello initWalkState).currentIndex = 1 ∧
    List.Pairwise (fun a b => a ≤ b) (exBlocksC1.map Block.originalIndex) :=
  ⟨(c1_index_advance_amended exRelsC1 [exParaHello] initWalkState).1 exParaHello
      (classifyPara exRelsC1 exParaHello initWalkState) rfl,
   (c1_index_advance_amended exRelsC1 [] initWalkState).2.2.2 exDocC1 exBlocksC1 rfl⟩

/-- C2 (counterexample): an empty-text paragraph with no image reference
and no formula nevertheless emits a block: the fallback tier enumerates
the owning part's image relationships, so with one image relationship in
the part the child yields one Image block instead of zero. -/
theorem c2_empty_paragraph_counterexample :
    stripChars exParaC2.text = [] ∧ exParaC2.drawings = [] ∧ exParaC2.shapes = [] ∧
    extractFormula exParaC2.hasOMath exParaC2.ommlText exParaC2.runsText = none ∧
    extractFromDocx exRelsC2 [BodyChild.p exParaC2]
      = Except.ok [Block.image exImgC2 0] :=
  ⟨rfl, rfl, rfl, rfl, rfl⟩

/-- C2 (amended): an empty-text paragraph with no image reference and no
formula always advances the index by exactly one, and emits zero blocks
precisely when the owning part holds no image relationships; when the
part does hold an image relationship, the fallback tier emits at least
one Image block for that child. -/
theorem c2_empty_paragraph_amended (rels : RelTable) (para : Para) (st : WalkState)
    (hempty : stripChars para.text = [])
    (hnod : para.drawings = []) (hnos : para.shapes = [])
    (hnf : extractFormula para.hasOMath para.ommlText para.runsText = none) :
    (classifyPara rels para st).currentIndex = st.currentIndex + 1 ∧
    ((∀ e ∈ rels, e.2.reltypeHasImage = false) →
      (classifyPara rels para st).blocks = st.blocks) ∧
    ((∃ e ∈ rels, e.2.reltypeHasImage = true) →
      st.blocks.length < (classifyPara rels para st).blocks.length) := by
  have hblocks : (classifyPara rels para st).blocks
      = st.blocks ++
          ((runTier3 rels { results := [], processed := [], counter := st.counter }).results).map
            (fun im => Block.image im st.currentIndex) := by
    simp only [classifyPara, paraNewBlocks, hempty, hnod, hnos, hnf,
      processImages, runTier1, runTier2, if_pos]
  refine ⟨rfl, ?_, ?_⟩
  · intro hall
    rw [hblocks, runTier3_no_image hall]
    simp
  · intro hex
    rcases hex with ⟨e, he, himg⟩
    have hne := @runTier3_hits rels { results := [], processed := [], counter := st.counter }
      ⟨e, he, himg, List.not_mem_nil _⟩
    rw [hblocks, List.length_append]
    have : 0 < ((runTier3 rels { results := [], processed := [], counter := st.counter }).results).length :=
      List.length_pos.mpr hne
    rw [List.length_map]
    omega

/-- C2 (witness): on a concrete empty paragraph with one image
relationship in the part, the index advances once and at least one block
is emitted. -/
theorem c2_empty_paragraph_witness :
    (classifyPara exRelsC2 exParaC2 initWalkState).currentIndex = 1 ∧
    initWalkState.blocks.length < (classifyPara exRelsC2 exParaC2 initWalkState).blocks.length := by
  have h := c2_empty_paragraph_amended exRelsC2 exParaC2 initWalkState rfl rfl rfl rfl
  exact ⟨h.1, h.2.2 ⟨(ridOne, relOne), List.mem_cons_self _ _, rfl⟩⟩

/-- C3 (counterexample): a non-empty paragraph classified as a formula
does *not* have its images extracted: with a resolvable inline drawing
attached, only the formula block is emitted and the filename supply is
untouched. -/
theorem c3_images_branch_counterexample :
    stripChars exParaC3.text ≠ [] ∧
    exParaC3.drawings = [{ rid := ridOne, pos := PosInfo.modern ("inline") }] ∧
    relLookup exRelsC3 ridOne = some relOne ∧
    extractFromDocx exRelsC3 [BodyChild.p exParaC3]
      = Except.ok [Block.formula (("a \\frac b \\alpha").data) FormulaKind.latex
          (some (paraFmt exParaC3)) 0] :=
  ⟨by decide, rfl, rfl, rfl⟩

/-- C3 (amended): for a non-empty paragraph, the Drawing Resolver runs
and its Image blocks are appended at the same index in the heading and
plain-text branches only; in the formula branch the paragraph is not
scanned for images at all (the single formula block is emitted and the
resolver's filename supply is untouched). -/
theorem c3_images_branch_amended (rels : RelTable) (para : Para) (st : WalkState)
    (hne : stripChars para.text ≠ []) :
    (extractFormula para.hasOMath para.ommlText para.runsText = none →
      (classifyPara rels para st).blocks
        = st.blocks ++ textOrHeadingBlock para st.currentIndex ::
            (processImages rels para.drawings para.shapes st.counter).1.map
              (fun im => Block.image im st.currentIndex)) ∧
    (∀ kc, extractFormula para.hasOMath para.ommlText para.runsText = some kc →
      (classifyPara rels para st).blocks
          = st.blocks ++ [Block.formula kc.2 kc.1 (some (paraFmt para)) st.currentIndex] ∧
      (classifyPara rels para st).counter = st.counter) := by
  constructor
  · intro hf
    simp only [classifyPara, paraNewBlocks, if_neg hne, hf]
  · intro kc hf
    constructor
    · simp only [classifyPara, paraNewBlocks, if_neg hne, hf]
    · simp only [classifyPara, paraNewBlocks, if_neg hne, hf]

/-- C3 (witness): the formula paragraph with an attached drawing emits
only its formula block and leaves the supply at `0`; the plain paragraph
takes the text branch, whose shape includes the resolver's output. -/
theorem c3_images_branch_witness :
    (classifyPara exRelsC3 exParaC3 initWalkState).blocks
        = [Block.formula (("a \\frac b \\alpha").data) FormulaKind.latex
            (some (paraFmt exParaC3)) 0] ∧
    (classifyPara exRelsC3 exParaC3 initWalkState).counter = 0 ∧
    (classifyPara [] exParaHello initWalkState).blocks
        = [Block.text (("hello").data) (paraFmt exParaHello) 0] := by
  have h1 := (c3_images_branch_amended exRelsC3 exParaC3 initWalkState (by decide)).2
    (FormulaKind.latex, ("a \\frac b \\alpha").data) rfl
  have h2 := (c3_images_branch_amended [] exParaHello initWalkState (by decide)).1 rfl
  refine ⟨?_, h1.2, ?_⟩
  · rw [h1.1]; rfl
  · rw [h2]; rfl

/-- C4 (counterexample): `\[x+y\]` matches the Formula Extractor's paired
delimiters, but none of the rewriter's own markers occur in it, so the
rewrite step calls the API and returns its (changed) result instead of
passing the content through. -/
theorem c4_formula_passthrough_counterexample :
    containsLatexFormula (("\\[x+y\\]").data) = true ∧
    containsFormula (("\\[x+y\\]").data) = false ∧
    processTextBlock [] (fun _ => some (("CHANGED").data)) (("\\[x+y\\]").data)
      = ((("CHANGED").data), true) :=
  ⟨rfl, rfl, rfl⟩

/-- C4 (amended): the pass-through holds for every input matched via one
of the paired delimiters `\begin{equation}…\end{equation}`,
`\begin{align}…\end{align}`, `$$…$$` or `$…$` (the rewriter's marker
list covers those); it fails for inputs matched only via `\[…\]` or only
via vocabulary tokens outside the rewriter's list. -/
theorem c4_formula_passthrough_amended (cache : List (Chars × Chars))
    (api : Chars → Option Chars) (text : Chars)
    (h : pairedMarkerHit text (("\\begin{equation}").data) (("\\end{equation}").data) = true ∨
         pairedMarkerHit text (("\\begin{align}").data) (("\\end{align}").data) = true ∨
         pairedMarkerHit text (("$$").data) (("$$").data) = true ∨
         pairedMarkerHit text (("$").data) (("$").data) = true) :
    containsLatexFormula text = true ∧
    processTextBlock cache api text = (text, false) := by
  have hlat : containsLatexFormula text = true := by
    have hany : (latexMarkers.any fun p => pairedMarkerHit text p.1 p.2) = true := by
      rcases h with h1 | h1 | h1 | h1
      · exact List.any_eq_true.mpr
          ⟨((("\\begin{equation}").data, ("\\end{equation}").data)), by decide, h1⟩
      · exact List.any_eq_true.mpr
          ⟨((("\\begin{align}").data, ("\\end{align}").data)), by decide, h1⟩
      · exact List.any_eq_true.mpr ⟨((("$$").data, ("$$").data)), by decide, h1⟩
      · exact List.any_eq_true.mpr ⟨((("$").data, ("$").data)), by decide, h1⟩
    unfold containsLatexFormula
    rw [if_pos hany]
  have hrw : containsFormula text = true := by
    unfold containsFormula
    rcases h with h1 | h1 | h1 | h1
    · exact List.any_eq_true.mpr
        ⟨(("\\begin{equation}").data), by decide, pairedMarkerHit_start h1⟩
    · exact List.any_eq_true.mpr
        ⟨(("\\begin{align}").data), by decide, pairedMarkerHit_start h1⟩
    · exact List.any_eq_true.mpr
        ⟨(("$").data), by decide, inStr_mono (by decide) (pairedMarkerHit_start h1)⟩
    · exact List.any_eq_true.mpr ⟨(("$").data), by decide, pairedMarkerHit_start h1⟩
  refine ⟨hlat, ?_⟩
  unfold processTextBlock
  rw [if_pos hrw]

/-- C4 (witness): a `$…$`-delimited formula is detected by the extractor
and passed through unchanged by the rewriter with no API call. -/
theorem c4_formula_passthrough_witness :
    containsLatexFormula (("$E=mc^2$").data) = true ∧
    processTextBlock [] (fun _ => some (("X").data)) (("$E=mc^2$").data)
      = ((("$E=mc^2$").data), false) :=
  c4_formula_passthrough_amended [] (fun _ => some (("X").data)) _
    (Or.inr (Or.inr (Or.inr (by decide))))

/-- C5: the text-marker heuristic returns true whenever two distinct
vocabulary command tokens occur as substrings, and returns false when no
paired delimiter matches and the only vocabulary token present (if any)
is `\frac`. -/
theorem c5_latex_marker_heuristic (text : Chars) :
    ((∃ c1 ∈ latexCommands, ∃ c2 ∈ latexCommands,
        c1 ≠ c2 ∧ inStr c1 text = true ∧ inStr c2 text = true) →
      containsLatexFormula text = true) ∧
    ((∀ p ∈ latexMarkers, pairedMarkerHit text p.1 p.2 = false) →
      (∀ c ∈ latexCommands, inStr c text = true → c = ("\\frac").data) →
      containsLatexFormula text = false) := by
  constructor
  · exact two_tokens_formula
  · intro hpair honly
    have hany : (latexMarkers.any fun p => pairedMarkerHit text p.1 p.2) = false := by
      by_contra hc
      rcases List.any_eq_true.mp (eq_true_of_ne_false hc) with ⟨q, hq, hhit⟩
      rw [hpair q hq] at hhit
      cases hhit
    have hlen : (latexCommands.filter (fun c => inStr c text)).length ≤ 1 := by
      refine nodup_const_length_le_one (a := ("\\frac").data)
        (List.Nodup.filter _ (by decide)) ?_
      intro x hx
      have hx2 := List.mem_filter.mp hx
      exact honly x hx2.1 hx2.2
    unfold containsLatexFormula
    rw [if_neg (by simp [hany]), if_neg (by omega)]

/-- C5 (witness): `\frac` with `\alpha` is detected; `\frac` alone is
not. -/
theorem c5_latex_marker_heuristic_witness :
    containsLatexFormula (("x \\frac y \\alpha z").data) = true ∧
    containsLatexFormula (("only \\frac here").data) = false :=
  ⟨(c5_latex_marker_heuristic _).1 (by decide),
   (c5_latex_marker_heuristic _).2 (by decide) (by decide)⟩

/-- C6: for a non-empty, non-formula paragraph, a style name of the form
`Heading <suffix>` with an integer suffix yields exactly one Heading
block at that level; a style name starting with `Heading` whose
`replace('Heading ', '')` residue does not parse as an integer falls
back to a plain Text block instead of raising. -/
theorem c6_heading_classification (rels : RelTable) (para : Para) (st : WalkState)
    (hne : stripChars para.text ≠ [])
    (hnf : extractFormula para.hasOMath para.ommlText para.runsText = none) :
    (∀ suffix n, para.styleName = (("Heading ").data) ++ suffix →
      pyInt suffix = some n →
      (classifyPara rels para st).blocks
        = st.blocks ++ Block.heading (stripChars para.text) n (paraFmt para)
            st.currentIndex ::
            (processImages rels para.drawings para.shapes st.counter).1.map
              (fun im => Block.image im st.currentIndex)) ∧
    (listStartsWith (("Heading").data) para.styleName = true →
      pyInt (pyRemoveAll (("Heading ").data) para.styleName) = none →
      (classifyPara rels para st).blocks
        = st.blocks ++ Block.text (stripChars para.text) (paraFmt para)
            st.currentIndex ::
            (processImages rels para.drawings para.shapes st.counter).1.map
              (fun im => Block.image im st.currentIndex)) := by
  have hblocks : (classifyPara rels para st).blocks
      = st.blocks ++ textOrHeadingBlock para st.currentIndex ::
          (processImages rels para.drawings para.shapes st.counter).1.map
            (fun im => Block.image im st.currentIndex) := by
    simp only [classifyPara, paraNewBlocks, if_neg hne, hnf]
  constructor
  · intro suffix n hstyle hparse
    rw [hblocks]
    have hstart : listStartsWith (("Heading").data) para.styleName = true := by
      rw [hstyle]
      exact listStartsWith_trans (by decide) (listStartsWith_append_self _ _)
    have hth : textOrHeadingBlock para st.currentIndex
        = Block.heading (stripChars para.text) n (paraFmt para) st.currentIndex := by
      unfold textOrHeadingBlock
      rw [if_pos hstart, hstyle, pyRemoveAll_heading hparse, hparse]
    rw [hth]
  · intro hstart hparse
    rw [hblocks]
    have hth : textOrHeadingBlock para st.currentIndex
        = Block.text (stripChars para.text) (paraFmt para) st.currentIndex := by
      unfold textOrHeadingBlock
      rw [if_pos hstart, hparse]
    rw [hth]

/-- C6 (witness): `Heading 2` emits a level-2 Heading block; `Heading
Custom` emits a Text block. -/
theorem c6_heading_classification_witness :
    (classifyPara [] exParaH2 initWalkState).blocks
        = [Block.heading (("Intro").data) 2 (paraFmt exParaH2) 0] ∧
    (classifyPara [] exParaHC initWalkState).blocks
        = [Block.text (("Intro").data) (paraFmt exParaHC) 0] := by
  have h1 := (c6_heading_classification [] exParaH2 initWalkState (by decide) rfl).1
    (("2").data) 2 rfl rfl
  have h2 := (c6_heading_classification [] exParaHC initWalkState (by decide) rfl).2
    (by decide) rfl
  constructor
  · rw [h1]; rfl
  · rw [h2]; rfl

/-- C7: within one Drawing Resolver invocation, every relationship id is
resolved at most once across the three tiers: the emitted entries'
relationship ids are pairwise distinct. -/
theorem c7_resolver_dedup (rels : RelTable) (drawings : List DrawingRef)
    (shapes : List VmlShape) (counter : Nat) :
    (((processImages rels drawings shapes counter).1).map ImageInfo.rid).Nodup := by
  have h0 : PIInv { results := [], processed := [], counter := counter } :=
    ⟨List.nodup_nil, fun im him => absurd him (List.not_mem_nil im)⟩
  simp only [processImages]
  set st1 := runTier1 rels drawings
    { results := [], processed := [], counter := counter } with hst1
  have h1 : PIInv st1 := runTier1_inv h0
  set st2 := if st1.results = [] then runTier2 rels shapes st1 else st1 with hst2
  have h2 : PIInv st2 := by
    rw [hst2]
    split
    · exact runTier2_inv h1
    · exact h1
  set st3 := if st2.results = [] then runTier3 rels st2 else st2 with hst3
  have h3 : PIInv st3 := by
    rw [hst3]
    split
    · exact runTier3_inv h2
    · exact h2
  exact h3.1

/-- C8: image validation is best-effort and non-fatal.  When decoding
succeeds the file system is untouched (the file stays byte-identical to
the written payload); when decoding fails and re-encoding succeeds, the
original path is atomically replaced by the re-encoded PNG and the
temporary `_fixed.png` path is gone; when the repair also fails, the
validator returns `false` without raising and the file system (hence the
originally written, possibly corrupt file) is unchanged. -/
theorem c8_image_validation (ops : ImgOps) (fs : FS) (path : Chars) (bytes : Bytes)
    (hfs : fsGet fs path = some bytes) (hne : fixedPath path ≠ path) :
    (ops.decodeOk bytes = true → validateAndFixImage ops fs path = (fs, true)) ∧
    (∀ png, ops.decodeOk bytes = false → ops.reencode bytes = some png →
      (validateAndFixImage ops fs path).2 = true ∧
      fsGet (validateAndFixImage ops fs path).1 path = some png ∧
      fsGet (validateAndFixImage ops fs path).1 (fixedPath path) = none) ∧
    (ops.decodeOk bytes = false → ops.reencode bytes = none →
      validateAndFixImage ops fs path = (fs, false)) := by
  refine ⟨?_, ?_, ?_⟩
  · intro hdec
    unfold validateAndFixImage
    rw [hfs]
    dsimp only
    rw [if_pos hdec]
  · intro png hdec henc
    have hval : validateAndFixImage ops fs path
        = (fsErase (fsSet (fsSet fs (fixedPath path) png) path png) (fixedPath path),
           true) := by
      unfold validateAndFixImage
      rw [hfs]
      dsimp only
      rw [if_neg (by simp [hdec]), henc]
    refine ⟨by rw [hval], ?_, ?_⟩
    · rw [hval]
      dsimp only
      rw [fsGet_fsErase_ne _ (fun hh => hne hh.symm), fsGet_fsSet_self]
    · rw [hval]
      dsimp only
      exact fsGet_fsErase_self _ _
  · intro hdec henc
    unfold validateAndFixImage
    rw [hfs]
    dsimp only
    rw [if_neg (by simp [hdec]), henc]

/-- C8 (witness): a corrupt one-byte file is repaired in place: the path
holds the re-encoded bytes, the temporary path is absent, and the call
reports success. -/
theorem c8_image_validation_witness :
    (validateAndFixImage exOpsC8 exFsC8 exPathC8).2 = true ∧
    fsGet (validateAndFixImage exOpsC8 exFsC8 exPathC8).1 exPathC8 = some [7, 7] ∧
    fsGet (validateAndFixImage exOpsC8 exFsC8 exPathC8).1 (fixedPath exPathC8) = none :=
  (c8_image_validation exOpsC8 exFsC8 exPathC8 [0] rfl (by decide)).2.1
    [7, 7] (by decide) rfl

/-- C9 (implicit claim, confirmed): the walker fetches
`doc.paragraphs[current_index]` rather than wrapping the paragraph child
itself.  When every index-advancing body child is a paragraph (no
standalone drawing children; any standalone math child yields no
formula), every lookup is in range and returns exactly the child being
processed, so the run equals the reference walker that uses each child's
own paragraph.  But on a document with a standalone math element (that
yields a formula) before a paragraph, the lookup index exceeds the
paragraph list's length and the run raises `IndexError`. -/
theorem c9_paragraph_lookup (rels : RelTable) (doc : List BodyChild)
    (h : ∀ c ∈ doc, safeChild c = true) :
    extractFromDocx rels doc = Except.ok (extractOwn rels doc) ∧
    extractFromDocx [] exDocC9 = Except.error () := by
  constructor
  · unfold extractFromDocx extractOwn
    rw [walk_eq_own rels (docParagraphs doc) doc
      { blocks := [], currentIndex := 0, counter := 0 } h (List.drop_zero _)]
    rfl
  · rfl

/-- C9 (witness): on a concrete all-paragraph document the walker agrees
with the reference walker that uses each child's own paragraph. -/
theorem c9_paragraph_lookup_witness :
    extractFromDocx [] exDocC9w = Except.ok (extractOwn [] exDocC9w) :=
  (c9_paragraph_lookup [] exDocC9w (by decide)).1

/-- C10 (implicit claim, confirmed): because detection is substring
membership and `\in` is a substring of both `\int` and `\infty`, any
text containing `\int` or `\infty` already carries two distinct
vocabulary tokens and is reported as a formula.  The claim's side
conditions ("nothing else from the vocabulary, no paired delimiters")
are omitted: they are not needed for the conclusion, and demanding the
absence of `\in` would be unsatisfiable alongside the presence of
`\int`. -/
theorem c10_vocabulary_overlap (text : Chars)
    (h : inStr (("\\int").data) text = true ∨ inStr (("\\infty").data) text = true) :
    containsLatexFormula text = true := by
  rcases h with h1 | h1
  · exact two_tokens_formula ⟨(("\\int").data), by decide, (("\\in").data), by decide,
      by decide, h1, inStr_mono (by decide) h1⟩
  · exact two_tokens_formula ⟨(("\\infty").data), by decide, (("\\in").data), by decide,
      by decide, h1, inStr_mono (by decide) h1⟩

/-- C10 (witness): the lone token `\int` is reported as a formula. -/
theorem c10_vocabulary_overlap_witness :
    containsLatexFormula (("\\int").data) = true :=
  c10_vocabulary_overlap _ (Or.inl (by decide))

end AIRW
